import Mathlib

/-!
Verification of a proof-of-work block demo (TypeScript, `src/index.ts`).

The development embeds the program shallowly:

* `sha256Hex` is a full executable SHA-256 (the program calls
  `CryptoJS.SHA256(...).toString()`, i.e. standard SHA-256 rendered as
  lowercase hex), written over `Nat` with explicit reduction mod `2 ^ 32`.
* `Block` mirrors the `Block` class; `Block.new` is the constructor
  (`Date.now()` is impure, so the timestamp is an explicit argument).
* `calculateHash`, `isValidHash` and the `mineBlock` while-loop are
  translated field by field; the loop is fuel-indexed (`mineLoop`), with
  `none` meaning the fuel ran out before the loop exited.
-/

/-- Truncate a natural number to a 32-bit word. -/
def w32 (n : Nat) : Nat := n % 4294967296

/-- Rotate a 32-bit word right by `n` bits. -/
def rotr (n x : Nat) : Nat := w32 ((x >>> n) ||| (x <<< (32 - n)))

/-- Bitwise complement on 32-bit words. -/
def bnot32 (x : Nat) : Nat := x ^^^ 4294967295

/-- The SHA-256 choice function. -/
def shaCh (x y z : Nat) : Nat := (x &&& y) ^^^ (bnot32 x &&& z)

/-- The SHA-256 majority function. -/
def shaMaj (x y z : Nat) : Nat := (x &&& y) ^^^ (x &&& z) ^^^ (y &&& z)

/-- The SHA-256 big sigma-0 function. -/
def bigSigma0 (x : Nat) : Nat := rotr 2 x ^^^ rotr 13 x ^^^ rotr 22 x

/-- The SHA-256 big sigma-1 function. -/
def bigSigma1 (x : Nat) : Nat := rotr 6 x ^^^ rotr 11 x ^^^ rotr 25 x

/-- The SHA-256 small sigma-0 function. -/
def smallSigma0 (x : Nat) : Nat := rotr 7 x ^^^ rotr 18 x ^^^ (x >>> 3)

/-- The SHA-256 small sigma-1 function. -/
def smallSigma1 (x : Nat) : Nat := rotr 17 x ^^^ rotr 19 x ^^^ (x >>> 10)

/-- The 64 SHA-256 round constants. -/
def shaK : List Nat :=
  [1116352408, 1899447441, 3049323471, 3921009573, 961987163,
   1508970993, 2453635748, 2870763221, 3624381080, 310598401,
   607225278, 1426881987, 1925078388, 2162078206, 2614888103,
   3248222580, 3835390401, 4022224774, 264347078, 604807628,
   770255983, 1249150122, 1555081692, 1996064986, 2554220882,
   2821834349, 2952996808, 3210313671, 3336571891, 3584528711,
   113926993, 338241895, 666307205, 773529912, 1294757372,
   1396182291, 1695183700, 1986661051, 2177026350, 2456956037,
   2730485921, 2820302411, 3259730800, 3345764771, 3516065817,
   3600352804, 4094571909, 275423344, 430227734, 506948616,
   659060556, 883997877, 958139571, 1322822218, 1537002063,
   1747873779, 1955562222, 2024104815, 2227730452, 2361852424,
   2428436474, 2756734187, 3204031479, 3329325298]

/-- The SHA-256 initial hash value. -/
def shaH0 : List Nat :=
  [1779033703, 3144134277, 1013904242,
   2773480762, 1359893119, 2600822924,
   528734635, 1541459225]

/-- Extend 16 message words towards 64; `rev` holds the words produced so far,
newest first. -/
def scheduleGo : Nat → List Nat → List Nat
  | 0, rev => rev
  | k + 1, rev =>
      let s0 := smallSigma0 (rev.getD 14 0)
      let s1 := smallSigma1 (rev.getD 1 0)
      let w := w32 (rev.getD 15 0 + s0 + rev.getD 6 0 + s1)
      scheduleGo k (w :: rev)

/-- The 64-entry message schedule of a 16-word chunk. -/
def schedule (chunk : List Nat) : List Nat := (scheduleGo 48 chunk.reverse).reverse

/-- One SHA-256 round on the 8-word working state. -/
def shaRound (st : List Nat) (w k : Nat) : List Nat :=
  match st with
  | [a, b, c, d, e, f, g, h] =>
      let t1 := w32 (h + bigSigma1 e + shaCh e f g + k + w)
      let t2 := w32 (bigSigma0 a + shaMaj a b c)
      [w32 (t1 + t2), a, b, c, w32 (d + t1), e, f, g]
  | _ => st

/-- Compress one 16-word chunk into the 8-word hash state. -/
def compress (h : List Nat) (chunk : List Nat) : List Nat :=
  List.zipWith (fun x y => w32 (x + y)) h
    ((List.zip (schedule chunk) shaK).foldl (fun s p => shaRound s p.1 p.2) h)

/-- UTF-8 encoding of one character, as bytes. -/
def utf8EncodeChar (c : Char) : List Nat :=
  let n := c.toNat
  if n < 128 then [n]
  else if n < 2048 then [192 ||| (n >>> 6), 128 ||| (n &&& 63)]
  else if n < 65536 then [224 ||| (n >>> 12), 128 ||| ((n >>> 6) &&& 63), 128 ||| (n &&& 63)]
  else [240 ||| (n >>> 18), 128 ||| ((n >>> 12) &&& 63), 128 ||| ((n >>> 6) &&& 63), 128 ||| (n &&& 63)]

/-- UTF-8 bytes of a string. -/
def utf8Bytes (s : String) : List Nat := (s.data.map utf8EncodeChar).flatten

/-- SHA-256 padding: append `0x80`, zero bytes, and the 64-bit big-endian bit
length, reaching a multiple of 64 bytes. -/
def padBytes (msg : List Nat) : List Nat :=
  let L := msg.length
  let bitLen := 8 * L
  let zeros := (64 + 56 - (L + 1) % 64) % 64
  msg ++ 128 :: List.replicate zeros 0 ++
    ((List.range 8).map fun i => bitLen / 2 ^ (8 * (7 - i)) % 256)

/-- Group bytes into big-endian 32-bit words. -/
def toWords : List Nat → List Nat
  | b0 :: b1 :: b2 :: b3 :: rest => (b0 * 16777216 + b1 * 65536 + b2 * 256 + b3) :: toWords rest
  | _ => []

/-- Map a nibble to its lowercase hexadecimal character. -/
def hexDigitChar (n : Nat) : Char := if n < 10 then Char.ofNat (48 + n) else Char.ofNat (87 + n)

/-- Render a 32-bit word as exactly 8 hexadecimal characters. -/
def wordToHex (w : Nat) : List Char :=
  (List.range 8).map fun i => hexDigitChar (w / 2 ^ (4 * (7 - i)) % 16)

/-- The eight 32-bit digest words of SHA-256 on a string: pad, split into
16-word chunks, and fold `compress` over the chunks starting from `shaH0`. -/
def shaDigestWords (s : String) : List Nat :=
  let ws := toWords (padBytes (utf8Bytes s))
  (List.range (ws.length / 16)).foldl
    (fun h i => compress h ((ws.drop (16 * i)).take 16)) shaH0

/-- SHA-256 of a string, rendered as a lowercase hexadecimal string.  This is
the meaning of `CryptoJS.SHA256(s).toString()` in the source. -/
def sha256Hex (s : String) : String :=
  String.mk ((shaDigestWords s).map wordToHex).flatten

/-- The escape JSON.stringify applies to one character of a string value. -/
def jsonEscapeChar (c : Char) : List Char :=
  if c = Char.ofNat 34 then [Char.ofNat 92, Char.ofNat 34]
  else if c = Char.ofNat 92 then [Char.ofNat 92, Char.ofNat 92]
  else if c = Char.ofNat 8 then [Char.ofNat 92, 'b']
  else if c = Char.ofNat 9 then [Char.ofNat 92, 't']
  else if c = Char.ofNat 10 then [Char.ofNat 92, 'n']
  else if c = Char.ofNat 12 then [Char.ofNat 92, 'f']
  else if c = Char.ofNat 13 then [Char.ofNat 92, 'r']
  else if c.toNat < 32 then
    Char.ofNat 92 :: 'u' :: ((List.range 4).map fun i => hexDigitChar (c.toNat / 16 ^ (3 - i) % 16))
  else [c]

/-- The meaning of `JSON.stringify(data)` for a string payload: the text in
double quotes with JSON escapes applied. -/
def jsonStringify (s : String) : String :=
  String.mk (Char.ofNat 34 :: (s.data.map jsonEscapeChar).flatten ++ [Char.ofNat 34])

/-- `const DIFFICULTY = 4` — the number of leading zeros required in the hash. -/
def DIFFICULTY : Nat := 4

/-- The meaning of `Array(len).join(sep)`: `len` empty slots joined by `sep`,
i.e. `sep` repeated `len - 1` times. -/
def jsArrayJoin (len : Nat) (sep : String) : String :=
  String.intercalate sep (List.replicate len "")

/-- The difficulty target `Array(DIFFICULTY + 1).join("0")`, i.e. `"0000"`. -/
def difficultyTarget : String := jsArrayJoin (DIFFICULTY + 1) "0"

/-- The meaning of `s.substring(start, stop)` for `start ≤ stop` (JavaScript
clamps `stop` to the string length, as `List.take` does). -/
def jsSubstring (s : String) (start stop : Nat) : String :=
  String.mk ((s.data.drop start).take (stop - start))

/-- The `Block` class: one link in the hash chain. -/
structure Block where
  index : Nat
  timestamp : Nat
  data : String
  previousHash : String
  hash : String
  nonce : Nat
deriving DecidableEq

/-- `calculateHash()`: SHA-256 of `index + previousHash + timestamp +
JSON.stringify(data) + nonce`, where `+` is JavaScript string concatenation
with numbers rendered in decimal. -/
def calculateHash (b : Block) : String :=
  sha256Hex (Nat.repr b.index ++ b.previousHash ++ Nat.repr b.timestamp ++
    jsonStringify b.data ++ Nat.repr b.nonce)

/-- The constructor: stores the arguments, stamps the timestamp (passed in,
since `Date.now()` is an external input), sets `nonce = 0` and computes the
initial hash.  `calculateHash` never reads the `hash` field, so the
placeholder used while computing it is irrelevant. -/
def Block.new (index : Nat) (data : String) (previousHash : String) (timestamp : Nat) : Block :=
  let b0 : Block :=
    { index := index, timestamp := timestamp, data := data,
      previousHash := previousHash, hash := "", nonce := 0 }
  { b0 with hash := calculateHash b0 }

/-- A call of the constructor with the `previousHash` argument omitted: the
source declares the parameter as `previousHash: string = ''`. -/
def Block.newDefault (index : Nat) (data : String) (timestamp : Nat) : Block :=
  Block.new index data "" timestamp

/-- `isValidHash(hash)`: `hash.substring(0, DIFFICULTY) ===
Array(DIFFICULTY + 1).join("0")`. -/
def isValidHash (hash : String) : Bool :=
  jsSubstring hash 0 DIFFICULTY == difficultyTarget

/-- One iteration of the mining loop body: `this.nonce++; this.hash =
this.calculateHash();`. -/
def mineStep (b : Block) : Block :=
  let n := b.nonce + 1
  { b with nonce := n, hash := calculateHash { b with nonce := n } }

/-- The `mineBlock()` while-loop, indexed by fuel: loop while
`this.hash.substring(0, DIFFICULTY) !== Array(DIFFICULTY + 1).join("0")`,
running the body `mineStep`.  `none` means the fuel was exhausted with the
loop still running. -/
def mineLoop : Nat → Block → Option Block
  | 0, b => if jsSubstring b.hash 0 DIFFICULTY == difficultyTarget then some b else none
  | f + 1, b =>
    if jsSubstring b.hash 0 DIFFICULTY == difficultyTarget then some b
    else mineLoop f (mineStep b)

/-- `mineBlock()` as a fuel-indexed function (the `console.log` narration has
no effect on the block and is not modelled). -/
def Block.mineBlock (b : Block) (fuel : Nat) : Option Block := mineLoop fuel b

/-- The hash the block would have with its nonce replaced by `n`. -/
def hashAt (b : Block) (n : Nat) : String := calculateHash { b with nonce := n }

/-- `mineBlock` terminates on `b` with result `b'` (for some fuel). -/
def MinesTo (b b' : Block) : Prop := ∃ fuel, mineLoop fuel b = some b'

/-- Modelled from the spec, §4.2 step 1: a mining operation that *first* sets
`nonce = 0` and recomputes the fingerprint, before entering the same loop.
The source's `mineBlock` does not contain this reset; this definition exists
to compare the claimed algorithm with the translated one. -/
def specMineStart (b : Block) : Block :=
  let c := { b with nonce := 0 }
  { c with hash := calculateHash c }

/-- The claimed reset-first mining relation: reset, then run the same loop. -/
def SpecMinesTo (b b' : Block) : Prop := MinesTo (specMineStart b) b'

/-- The genesis block of the demo, at a timestamp whose nonce-0 hash already
meets the difficulty target (so the loop exits after zero iterations). -/
def genesisBlock : Block := Block.new 0 "Genesis Block" "0" 1700000145933

/-- A hand-written block whose stored hash field is 64 zero characters; its
stored hash meets the difficulty target, whatever `calculateHash` would say. -/
def zeroHashBlock : Block :=
  { index := 0, timestamp := 7, data := "x", previousHash := "0",
    hash := "0000000000000000000000000000000000000000000000000000000000000000", nonce := 5 }

/-- SHA-256 test vector: the empty string. -/
theorem sha256Hex_empty :
    sha256Hex "" = "e3b0c44298fc1c149afbf4c8996fb92427ae41e4649b934ca495991b7852b855" := by
  decide

/-- SHA-256 test vector: the string abc. -/
theorem sha256Hex_abc :
    sha256Hex "abc" = "ba7816bf8f01cfea414140de5dae2223b00361a396177a9cb410ff61f20015ad" := by
  decide

/-- The genesis block's construction-time hash, cross-checked against an
independent SHA-256 implementation; it already meets the difficulty target. -/
theorem genesisBlock_hash_value :
    genesisBlock.hash = "0000127c88e46efcdd0172ed31ca093a15033bd76f0ce50b755f40f51036022e" := by
  decide

/-- The loop guard of `mineBlock` is exactly `isValidHash` applied to the
stored hash (the source inlines the same expression in both places). -/
theorem guard_eq_isValidHash (s : String) :
    (jsSubstring s 0 DIFFICULTY == difficultyTarget) = isValidHash s := rfl

/-- The hash at a block's own nonce is its `calculateHash`. -/
theorem hashAt_self (b : Block) : hashAt b b.nonce = calculateHash b := rfl

/-- Unfolding `mineLoop` at fuel 0. -/
theorem mineLoop_zero (b : Block) :
    mineLoop 0 b = if isValidHash b.hash then some b else none := rfl

/-- Unfolding `mineLoop` at successor fuel. -/
theorem mineLoop_succ (f : Nat) (b : Block) :
    mineLoop (f + 1) b = if isValidHash b.hash then some b else mineLoop f (mineStep b) := rfl

/-- When the stored hash already meets the target, the loop exits at once
with the block untouched, for any fuel. -/
theorem mineLoop_of_valid (fuel : Nat) (b : Block) (h : isValidHash b.hash = true) :
    mineLoop fuel b = some b := by
  cases fuel with
  | zero => rw [mineLoop_zero, if_pos h]
  | succ f => rw [mineLoop_succ, if_pos h]

/-- `calculateHash` depends only on the five hashed fields. -/
theorem calculateHash_congr (b c : Block) (h1 : b.index = c.index)
    (h2 : b.timestamp = c.timestamp) (h3 : b.data = c.data)
    (h4 : b.previousHash = c.previousHash) (h5 : b.nonce = c.nonce) :
    calculateHash b = calculateHash c := by
  unfold calculateHash
  rw [h1, h2, h3, h4, h5]

/-- Soundness of the mining loop: a returned block meets the target, agrees
with the input on every field other than `nonce` and `hash`, has a nonce no
smaller than the input's, is either the untouched input or carries the
recomputed hash of a strictly larger nonce, and every nonce strictly between
the input's and the returned one was tried and failed. -/
theorem mineLoop_sound (fuel : Nat) :
    ∀ b b' : Block, mineLoop fuel b = some b' →
      isValidHash b'.hash = true ∧
      b'.index = b.index ∧ b'.timestamp = b.timestamp ∧ b'.data = b.data ∧
      b'.previousHash = b.previousHash ∧ b.nonce ≤ b'.nonce ∧
      (b' = b ∨ (b.nonce < b'.nonce ∧ b'.hash = hashAt b b'.nonce)) ∧
      (∀ m, b.nonce < m → m < b'.nonce → isValidHash (hashAt b m) = false) := by
  induction fuel with
  | zero =>
    intro b b' h
    rw [mineLoop_zero] at h
    by_cases hg : isValidHash b.hash = true
    · rw [if_pos hg, Option.some.injEq] at h
      subst h
      refine ⟨hg, rfl, rfl, rfl, rfl, Nat.le_refl _, Or.inl rfl, ?_⟩
      intro m h1 h2
      omega
    · rw [if_neg hg] at h
      exact absurd h (by simp)
  | succ f ih =>
    intro b b' h
    rw [mineLoop_succ] at h
    by_cases hg : isValidHash b.hash = true
    · rw [if_pos hg, Option.some.injEq] at h
      subst h
      refine ⟨hg, rfl, rfl, rfl, rfl, Nat.le_refl _, Or.inl rfl, ?_⟩
      intro m h1 h2
      omega
    · rw [if_neg hg] at h
      obtain ⟨v1, v2, v3, v4, v5, v6, v7, v8⟩ := ih (mineStep b) b' h
      have hn : b.nonce + 1 ≤ b'.nonce := v6
      refine ⟨v1, v2, v3, v4, v5, by omega, ?_, ?_⟩
      · rcases v7 with hb | ⟨hlt, hh⟩
        · subst hb
          exact Or.inr ⟨Nat.lt_succ_self _, rfl⟩
        · exact Or.inr ⟨by omega, hh⟩
      · intro m h1 h2
        have hc : (mineStep b).nonce = b.nonce + 1 := rfl
        by_cases hm : m = b.nonce + 1
        · subst hm
          by_cases hv : isValidHash ((mineStep b).hash) = true
          · have := mineLoop_of_valid f (mineStep b) hv
            rw [this, Option.some.injEq] at h
            subst h
            exact absurd h2 (by omega)
          · simpa using hv
        · exact v8 m (by omega) h2

/-- The hash invariant (`hash = calculateHash` of the current fields) is
preserved by the mining loop. -/
theorem mineLoop_inv (fuel : Nat) (b b' : Block) (hinv : b.hash = calculateHash b)
    (h : mineLoop fuel b = some b') : b'.hash = calculateHash b' := by
  obtain ⟨_, v2, v3, v4, v5, _, v7, _⟩ := mineLoop_sound fuel b b' h
  rcases v7 with hb | ⟨_, hh⟩
  · subst hb
    exact hinv
  · rw [hh]
    exact (calculateHash_congr b' { b with nonce := b'.nonce } v2 v3 v4 v5 rfl).symm

/-- Completeness of the mining loop: if the invariant holds and the hash at
nonce `b.nonce + d` meets the target, then fuel `d` suffices to terminate. -/
theorem mineLoop_complete (d : Nat) :
    ∀ b : Block, b.hash = calculateHash b →
      isValidHash (hashAt b (b.nonce + d)) = true → ∃ b', mineLoop d b = some b' := by
  induction d with
  | zero =>
    intro b hinv hv
    have hb : isValidHash b.hash = true := by
      rw [hinv]
      exact hv
    exact ⟨b, mineLoop_of_valid 0 b hb⟩
  | succ d ih =>
    intro b hinv hv
    by_cases hg : isValidHash b.hash = true
    · exact ⟨b, mineLoop_of_valid _ b hg⟩
    · have hinv' : (mineStep b).hash = calculateHash (mineStep b) := rfl
      have hv' : isValidHash (hashAt (mineStep b) ((mineStep b).nonce + d)) = true := by
        have e : hashAt (mineStep b) ((mineStep b).nonce + d) = hashAt b (b.nonce + (d + 1)) := by
          show hashAt b (b.nonce + 1 + d) = hashAt b (b.nonce + (d + 1))
          rw [Nat.add_assoc, Nat.add_comm 1 d]
        rw [e]
        exact hv
      obtain ⟨b', hb'⟩ := ih (mineStep b) hinv' hv'
      refine ⟨b', ?_⟩
      rw [mineLoop_succ, if_neg hg]
      exact hb'

/-- The set of characters a hexadecimal rendering may use. -/
def isHexChar (c : Char) : Bool := ("0123456789abcdef".data).contains c

/-- One SHA-256 round preserves the length of the working state. -/
theorem shaRound_length (st : List Nat) (w k : Nat) : (shaRound st w k).length = st.length := by
  rcases st with _ | ⟨a, _ | ⟨b, _ | ⟨c, _ | ⟨d, _ | ⟨e, _ | ⟨f, _ | ⟨g, _ | ⟨h, _ | ⟨i, t⟩⟩⟩⟩⟩⟩⟩⟩⟩ <;> rfl

/-- Folding SHA-256 rounds preserves the length of the working state. -/
theorem foldl_shaRound_length (l : List (Nat × Nat)) :
    ∀ st : List Nat, (l.foldl (fun s p => shaRound s p.1 p.2) st).length = st.length := by
  induction l with
  | nil => intro st; rfl
  | cons p t ih => intro st; rw [List.foldl_cons, ih, shaRound_length]

/-- Compression preserves the 8-word shape of the hash state. -/
theorem compress_length (h chunk : List Nat) (hl : h.length = 8) :
    (compress h chunk).length = 8 := by
  unfold compress
  rw [List.length_zipWith, foldl_shaRound_length, hl]
  simp

/-- Folding compressions preserves the 8-word shape of the hash state. -/
theorem foldl_compress_length (ws : List Nat) (l : List Nat) :
    ∀ h : List Nat, h.length = 8 →
      (l.foldl (fun h i => compress h ((ws.drop (16 * i)).take 16)) h).length = 8 := by
  induction l with
  | nil => intro h hl; exact hl
  | cons a t ih => intro h hl; rw [List.foldl_cons]; exact ih _ (compress_length _ _ hl)

/-- The SHA-256 digest always has exactly eight words. -/
theorem shaDigestWords_length (s : String) : (shaDigestWords s).length = 8 := by
  unfold shaDigestWords
  exact foldl_compress_length _ _ _ rfl

/-- A word always renders as exactly 8 hexadecimal characters. -/
theorem wordToHex_length (w : Nat) : (wordToHex w).length = 8 := by
  unfold wordToHex
  rw [List.length_map, List.length_range]

/-- Flattening lists of 8 characters each gives 8 characters per list. -/
theorem flatten_length_of_eight (l : List (List Char)) (h : ∀ x ∈ l, x.length = 8) :
    l.flatten.length = 8 * l.length := by
  induction l with
  | nil => rfl
  | cons a t ih =>
    rw [List.flatten_cons, List.length_append, List.length_cons,
      h a (List.mem_cons_self a t), ih fun x hx => h x (List.mem_cons_of_mem a hx)]
    ring

/-- SHA-256 as rendered by the program is always 64 characters long. -/
theorem sha256Hex_length (s : String) : (sha256Hex s).length = 64 := by
  show ((shaDigestWords s).map wordToHex).flatten.length = 64
  rw [flatten_length_of_eight]
  · rw [List.length_map, shaDigestWords_length]
  · intro x hx
    obtain ⟨w, _, rfl⟩ := List.mem_map.mp hx
    exact wordToHex_length w

/-- Every nibble renders as a hexadecimal character. -/
theorem isHexChar_hexDigitChar (n : Nat) (h : n < 16) : isHexChar (hexDigitChar n) = true := by
  interval_cases n <;> decide

/-- Every character of the rendered SHA-256 digest is a hexadecimal digit. -/
theorem sha256Hex_chars (s : String) : ∀ c ∈ (sha256Hex s).data, isHexChar c = true := by
  intro c hc
  have hc' : c ∈ ((shaDigestWords s).map wordToHex).flatten := hc
  obtain ⟨x, hx, hcx⟩ := List.mem_flatten.mp hc'
  obtain ⟨w, _, rfl⟩ := List.mem_map.mp hx
  obtain ⟨i, _, rfl⟩ := List.mem_map.mp hcx
  exact isHexChar_hexDigitChar _ (Nat.mod_lt _ (by omega))

/-- The difficulty target evaluates to four zero characters. -/
theorem difficultyTarget_eq : difficultyTarget = "0000" := by decide

/-- A list whose first `n` elements are a given length-`n` list is exactly
that list followed by a tail. -/
theorem take_eq_iff_append (l p : List Char) (n : Nat) (hp : p.length = n) :
    l.take n = p ↔ ∃ t, l = p ++ t := by
  constructor
  · intro h
    exact ⟨l.drop n, by rw [← h, List.take_append_drop]⟩
  · rintro ⟨t, rfl⟩
    rw [← hp, List.take_left]

/-- `isValidHash` holds exactly when the string starts with `DIFFICULTY`
copies of the zero character. -/
theorem isValidHash_iff (s : String) :
    isValidHash s = true ↔ ∃ t, s.data = List.replicate DIFFICULTY '0' ++ t := by
  unfold isValidHash jsSubstring
  rw [difficultyTarget_eq, beq_iff_eq]
  show String.mk ((s.data.drop 0).take 4) = String.mk "0000".data ↔ _
  rw [List.drop_zero]
  have hinj : String.mk (s.data.take 4) = String.mk "0000".data ↔ s.data.take 4 = "0000".data := by
    constructor
    · intro h
      exact congrArg String.data h
    · intro h
      rw [h]
  rw [hinj]
  exact take_eq_iff_append s.data "0000".data 4 rfl

/-- C1: after the mining operation returns, the block's stored hash satisfies
the difficulty predicate — its first `DIFFICULTY` (= 4) characters are all
the zero character. -/
theorem mined_hash_meets_difficulty (fuel : Nat) (b b' : Block)
    (h : b.mineBlock fuel = some b') :
    isValidHash b'.hash = true ∧
    ∃ t, b'.hash.data = List.replicate DIFFICULTY '0' ++ t := by
  have hv := (mineLoop_sound fuel b b' h).1
  exact ⟨hv, (isValidHash_iff b'.hash).mp hv⟩

/-- Witness for C1 at a concrete block whose mining terminates at once. -/
theorem mined_hash_meets_difficulty_witness :
    zeroHashBlock.mineBlock 0 = some zeroHashBlock ∧
    (isValidHash zeroHashBlock.hash = true ∧
      ∃ t, zeroHashBlock.hash.data = List.replicate DIFFICULTY '0' ++ t) :=
  ⟨by decide, mined_hash_meets_difficulty 0 zeroHashBlock zeroHashBlock (by decide)⟩

/-- C2: immediately after construction the stored `hash` equals
`calculateHash` of the current fields, and the mining operation preserves
that equality; only direct field mutation afterwards can break it. -/
theorem hash_invariant_after_construct_and_mine :
    (∀ (idx : Nat) (d prev : String) (ts : Nat),
      (Block.new idx d prev ts).hash = calculateHash (Block.new idx d prev ts)) ∧
    (∀ (fuel : Nat) (b b' : Block), b.hash = calculateHash b →
      b.mineBlock fuel = some b' → b'.hash = calculateHash b') :=
  ⟨fun _ _ _ _ => rfl, fun fuel b b' hinv h => mineLoop_inv fuel b b' hinv h⟩

/-- Witness for C2 at the concrete genesis block. -/
theorem hash_invariant_after_construct_and_mine_witness :
    genesisBlock.mineBlock 1 = some genesisBlock ∧
    genesisBlock.hash = calculateHash genesisBlock :=
  ⟨by decide,
    hash_invariant_after_construct_and_mine.2 1 genesisBlock genesisBlock rfl (by decide)⟩

/-- C3: `calculateHash` is the SHA-256 hash, rendered as a 64-character
hexadecimal string, of the ordered concatenation of `index`,
`previousHash`, `timestamp`, the JSON serialization of `data`, and
`nonce`, exactly in that order. -/
theorem calculateHash_is_sha256_hex_of_ordered_fields (b : Block) :
    calculateHash b =
      sha256Hex (Nat.repr b.index ++ b.previousHash ++ Nat.repr b.timestamp ++
        jsonStringify b.data ++ Nat.repr b.nonce) ∧
    (calculateHash b).length = 64 ∧
    ∀ c ∈ (calculateHash b).data, isHexChar c = true :=
  ⟨rfl, sha256Hex_length _, sha256Hex_chars _⟩

/-- C4 counterexample: it is false that mining always behaves like the
reset-first algorithm (set `nonce = 0`, recompute, then loop): on a block
with `nonce = 5` whose stored hash already meets the target, `mineBlock`
returns at once with nonce 5, which the reset-first algorithm cannot do. -/
theorem mining_resets_nonce_claim_false :
    ¬ (∀ b b' : Block, MinesTo b b' ↔ SpecMinesTo b b') := by
  intro hcl
  have h1 : MinesTo zeroHashBlock zeroHashBlock := ⟨0, by decide⟩
  obtain ⟨fuel, hf⟩ := (hcl zeroHashBlock zeroHashBlock).mp h1
  have hinv : (specMineStart zeroHashBlock).hash =
      calculateHash (specMineStart zeroHashBlock) := rfl
  have hres := mineLoop_inv fuel (specMineStart zeroHashBlock) zeroHashBlock hinv hf
  exact absurd hres (by decide)

/-- C4 amended: `mineBlock` itself does not reset the nonce; it continues
from the stored nonce and hash.  The constructor is what sets `nonce = 0`
and computes the initial fingerprint, so on a freshly constructed block the
code's mining coincides with the claimed reset-first algorithm. -/
theorem mining_agrees_with_reset_on_fresh_blocks
    (idx : Nat) (d prev : String) (ts : Nat) (b' : Block) :
    MinesTo (Block.new idx d prev ts) b' ↔ SpecMinesTo (Block.new idx d prev ts) b' := by
  have h : specMineStart (Block.new idx d prev ts) = Block.new idx d prev ts := rfl
  unfold SpecMinesTo
  rw [h]

/-- C5 counterexample: constructing a block with the `previousHash` argument
omitted does not give the sentinel string of the claim. -/
theorem default_previous_fingerprint_claim_false :
    ¬ ((Block.newDefault 0 "x" 7).previousHash = "0") := by decide

/-- C5 amended: the constructor stores `index`, `data` and `previousHash` as
given and starts the nonce at 0; an omitted `previousHash` defaults to the
empty string (the driver passes the sentinel explicitly). -/
theorem constructor_fields_and_default_empty (idx : Nat) (d prev : String) (ts : Nat) :
    (Block.new idx d prev ts).index = idx ∧
    (Block.new idx d prev ts).data = d ∧
    (Block.new idx d prev ts).previousHash = prev ∧
    (Block.new idx d prev ts).nonce = 0 ∧
    (Block.newDefault idx d ts).previousHash = "" :=
  ⟨rfl, rfl, rfl, rfl, rfl⟩

/-- C6: mining mutates only `nonce` and `hash`; `index`, `timestamp`,
`data` and `previousHash` are unchanged. -/
theorem mineBlock_frame (fuel : Nat) (b b' : Block) (h : b.mineBlock fuel = some b') :
    b'.index = b.index ∧ b'.timestamp = b.timestamp ∧
    b'.data = b.data ∧ b'.previousHash = b.previousHash := by
  obtain ⟨_, v2, v3, v4, v5, _, _, _⟩ := mineLoop_sound fuel b b' h
  exact ⟨v2, v3, v4, v5⟩

/-- Witness for C6 at a concrete block whose mining terminates at once. -/
theorem mineBlock_frame_witness :
    zeroHashBlock.mineBlock 0 = some zeroHashBlock ∧
    (zeroHashBlock.index = zeroHashBlock.index ∧
      zeroHashBlock.timestamp = zeroHashBlock.timestamp ∧
      zeroHashBlock.data = zeroHashBlock.data ∧
      zeroHashBlock.previousHash = zeroHashBlock.previousHash) :=
  ⟨by decide, mineBlock_frame 0 zeroHashBlock zeroHashBlock (by decide)⟩

/-- C7: `isValidHash` returns true exactly when its input starts with
`DIFFICULTY` (= 4) copies of the zero character; it is a pure function of
its input, so repeated calls agree by construction. -/
theorem isValidHash_pure_prefix_spec (s : String) :
    isValidHash s = true ↔ ∃ t, s.data = List.replicate DIFFICULTY '0' ++ t :=
  isValidHash_iff s

/-- C8: under the stored-hash invariant, the mining loop terminates (for
some fuel) exactly when some nonce at or above the starting nonce yields a
fingerprint meeting the target; with no such nonce, no amount of fuel
suffices — the search runs unboundedly. -/
theorem mineBlock_terminates_iff_some_valid_nonce (b : Block)
    (hinv : b.hash = calculateHash b) :
    (∃ fuel b', b.mineBlock fuel = some b') ↔
      (∃ n, b.nonce ≤ n ∧ isValidHash (hashAt b n) = true) := by
  constructor
  · rintro ⟨fuel, b', h⟩
    obtain ⟨v1, _, _, _, _, v6, v7, _⟩ := mineLoop_sound fuel b b' h
    refine ⟨b'.nonce, v6, ?_⟩
    rcases v7 with hb | ⟨_, hh⟩
    · rw [hb, hashAt_self, ← hinv, ← hb]
      exact v1
    · rw [← hh]
      exact v1
  · rintro ⟨n, hn, hv⟩
    have e : b.nonce + (n - b.nonce) = n := by omega
    obtain ⟨b', hb'⟩ := mineLoop_complete (n - b.nonce) b hinv (by rw [e]; exact hv)
    exact ⟨n - b.nonce, b', hb'⟩

/-- Witness for C8 at the concrete genesis block. -/
theorem mineBlock_terminates_iff_some_valid_nonce_witness :
    genesisBlock.hash = calculateHash genesisBlock ∧
    ((∃ fuel b', genesisBlock.mineBlock fuel = some b') ↔
      (∃ n, genesisBlock.nonce ≤ n ∧ isValidHash (hashAt genesisBlock n) = true)) :=
  ⟨rfl, mineBlock_terminates_iff_some_valid_nonce genesisBlock rfl⟩

/-- C9: mining an already-valid block is a no-op — the loop condition is
tested before any increment, so the block comes back entirely unchanged,
whatever the fuel. -/
theorem mineBlock_idempotent_on_valid_block (b : Block) (fuel : Nat)
    (h : isValidHash b.hash = true) : b.mineBlock fuel = some b :=
  mineLoop_of_valid fuel b h

/-- Witness for C9 at a concrete already-valid block. -/
theorem mineBlock_idempotent_on_valid_block_witness :
    isValidHash zeroHashBlock.hash = true ∧ zeroHashBlock.mineBlock 3 = some zeroHashBlock :=
  ⟨by decide, mineBlock_idempotent_on_valid_block zeroHashBlock 3 (by decide)⟩

/-- C10: under the stored-hash invariant, the committed nonce is minimal:
it is at or above the pre-mining nonce, its fingerprint meets the target,
and every nonce from the pre-mining one up to (but excluding) the committed
one fails the target. -/
theorem mined_nonce_minimal (fuel : Nat) (b b' : Block)
    (hinv : b.hash = calculateHash b) (h : b.mineBlock fuel = some b') :
    b.nonce ≤ b'.nonce ∧ isValidHash (hashAt b b'.nonce) = true ∧
    ∀ m, b.nonce ≤ m → m < b'.nonce → isValidHash (hashAt b m) = false := by
  obtain ⟨v1, _, _, _, _, v6, v7, v8⟩ := mineLoop_sound fuel b b' h
  refine ⟨v6, ?_, ?_⟩
  · rcases v7 with hb | ⟨_, hh⟩
    · rw [hb, hashAt_self, ← hinv, ← hb]
      exact v1
    · rw [← hh]
      exact v1
  · intro m hm1 hm2
    by_cases hm : m = b.nonce
    · subst hm
      by_cases hv : isValidHash b.hash = true
      · have h' : mineLoop fuel b = some b' := h
        have hb : mineLoop fuel b = some b := mineLoop_of_valid fuel b hv
        have hbb : b' = b := Option.some.inj (h'.symm.trans hb)
        rw [hbb] at hm2
        exact absurd hm2 (by omega)
      · rw [hashAt_self, ← hinv]
        simpa using hv
    · exact v8 m (by omega) hm2

/-- Witness for C10 at the concrete genesis block. -/
theorem mined_nonce_minimal_witness :
    genesisBlock.hash = calculateHash genesisBlock ∧
    genesisBlock.mineBlock 1 = some genesisBlock ∧
    (genesisBlock.nonce ≤ genesisBlock.nonce ∧
      isValidHash (hashAt genesisBlock genesisBlock.nonce) = true ∧
      ∀ m, genesisBlock.nonce ≤ m → m < genesisBlock.nonce →
        isValidHash (hashAt genesisBlock m) = false) :=
  ⟨rfl, by decide, mined_nonce_minimal 1 genesisBlock genesisBlock rfl (by decide)⟩
